import Mathlib

/-!
Shallow embedding of `bash_map` (`src/main.rs`): the JSON value model
(serde_json's `Value`), the pointer parser (`Pointer::from_str`), the
read resolver (serde_json's `Value::pointer`, as called by `do_get`), the
mutator (`pointer_mut` / `pointer_inner` / `parse_index`, as called by
`do_set`), the structural comparator (`do_compare`, i.e. `Value`'s
`PartialEq`), and the input-resolution functions `variable_or_object` /
`variable_or_value`.

Modelling conventions:
* Rust `String` keys and tokens are Lean `String`s; byte-level operations
  of `str` (splitting on `/`, the two-character replacements `\/` -> `/`,
  `~1` -> `/`, `~0` -> `~`) are modelled on the underlying character list.
* `usize` is modelled as `Nat` with the 64-bit overflow check of
  `str::parse::<usize>()` made explicit (`< 2 ^ 64`).
* serde_json's `Map<String, Value>` (feature `preserve_order`: an
  insertion-ordered map with unique keys) is modelled as an association
  list; `entry(k).or_insert(v)` appends at the end when the key is absent.
* `f64` is modelled by its IEEE-754 bit pattern (a `Nat`), with IEEE
  equality (`NaN` unequal to everything, `+0 = -0`) made explicit.
* The in-place mutation of `pointer_mut`'s `try_fold` over `pointer_inner`
  (which threads a `&mut Value` handle) is rendered functionally:
  `pointer_mut_go` returns the document as it stands after traversal
  together with a success flag, and performs the caller's single write
  (`*val = args.value`) at the final handle.
-/

/-- serde_json's internal number representation `N`: `PosInt(u64)`,
`NegInt(i64)` (a negative value), or `Float(f64)` (stored here as the
IEEE-754 bit pattern).  `PartialEq` on `N` is derived, hence
representation-sensitive. -/
inductive JNum where
  | posInt (n : Nat)
  | negInt (n : Int)
  | float (bits : Nat)

/-- serde_json's `Value`: the closed six-variant JSON value model. -/
inductive Value where
  | null
  | bool (b : Bool)
  | number (n : JNum)
  | string (s : String)
  | array (elements : List Value)
  | object (entries : List (String × Value))

/-- IEEE-754 double: NaN test on the bit pattern (exponent all ones,
non-zero mantissa). -/
def isNaN64 (bits : Nat) : Bool :=
  ((bits >>> 52) &&& 0x7FF == 0x7FF) && (bits &&& 0xFFFFFFFFFFFFF != 0)

/-- IEEE-754 double: zero test on the bit pattern (ignoring the sign). -/
def isZero64 (bits : Nat) : Bool :=
  bits &&& 0x7FFFFFFFFFFFFFFF == 0

/-- `f64` equality (`==` in Rust) on bit patterns: `NaN` equals nothing,
`+0.0 = -0.0`, otherwise bit equality. -/
def f64Eq (a b : Nat) : Bool :=
  if isNaN64 a || isNaN64 b then false
  else if isZero64 a && isZero64 b then true
  else a == b

/-- Derived `PartialEq` on serde_json's `N`: cross-variant comparisons are
`false`; same-variant comparisons compare the payloads. -/
def numEq : JNum → JNum → Bool
  | JNum.posInt a, JNum.posInt b => a == b
  | JNum.negInt a, JNum.negInt b => a == b
  | JNum.float a, JNum.float b => f64Eq a b
  | _, _ => false

/-- `Map::get` on the association-list model (first matching key). -/
def mapGet (k : String) : List (String × Value) → Option Value
  | [] => none
  | (k2, v) :: rest => if k = k2 then some v else mapGet k rest

/-- `Map::contains_key` on the association-list model. -/
def containsKey (k : String) : List (String × Value) → Bool
  | [] => false
  | (k2, _) :: rest => if k = k2 then true else containsKey k rest

/-- `map.entry(&token).or_insert(Value::Null)`: insert `Null` at the end
when the key is absent, otherwise leave the map unchanged. -/
def orInsertNull (k : String) (m : List (String × Value)) : List (String × Value) :=
  if containsKey k m then m else m ++ [(k, Value.null)]

/-- Writing through a `&mut` handle obtained via `map.get_mut(&token)`:
replace the value at the (first occurrence of the) key. -/
def mapSet (k : String) (v : Value) : List (String × Value) → List (String × Value)
  | [] => []
  | (k2, v2) :: rest => if k = k2 then (k2, v) :: rest else (k2, v2) :: mapSet k v rest

/-- `c.isDigit` restricted to ASCII, as `str::parse::<usize>` checks. -/
def isDigitC (c : Char) : Bool :=
  decide (48 ≤ c.toNat) && decide (c.toNat ≤ 57)

/-- Numeric value of a digit string (most significant digit first). -/
def digitsVal (cs : List Char) : Nat :=
  cs.foldl (fun acc c => 10 * acc + (c.toNat - 48)) 0

/-- Rust's `str::parse::<usize>()` (on a 64-bit target): an optional
leading `+`, then one or more ASCII digits, failing on overflow. -/
def parseU64 (cs : List Char) : Option Nat :=
  let t := match cs with
    | c :: rest => if c == '+' then rest else cs
    | [] => []
  if t.isEmpty then none
  else if t.all isDigitC then
    if digitsVal t < 2 ^ 64 then some (digitsVal t) else none
  else none

/-- Does the string start with the given character? (`str::starts_with`). -/
def startsWithChar (c : Char) (s : String) : Bool :=
  match s.data with
  | d :: _ => d == c
  | [] => false

/-- `parse_index` from `src/main.rs`: reject a leading `+` and leading
zeros (other than the single digit `0`), then `s.parse::<usize>().ok()`. -/
def parse_index (s : String) : Option Nat :=
  if startsWithChar '+' s || (startsWithChar '0' s && s.data.length != 1) then none
  else parseU64 s.data

/-- Replace every (leftmost, non-overlapping) occurrence of the
two-character pattern `[a, b]` by `r`; this is Rust's `str::replace` for
the two-character patterns used by the program (`\/`, `~1`, `~0`). -/
def replace2 (a b : Char) (r : List Char) : List Char → List Char
  | [] => []
  | [c] => [c]
  | c :: d :: cs =>
    if c == a && d == b then r ++ replace2 a b r cs
    else c :: replace2 a b r (d :: cs)

/-- `str::split('/')`: split on every separator, keeping empty segments. -/
def splitChar (sep : Char) : List Char → List (List Char)
  | [] => [[]]
  | c :: cs =>
    let r := splitChar sep cs
    if c == sep then [] :: r
    else
      match r with
      | h :: t => (c :: h) :: t
      | [] => [[c]]

/-- The two-apostrophe string `''` (built from character codes). -/
def sqsq : String := String.mk [Char.ofNat 39, Char.ofNat 39]

/-- The struct `Pointer` of `src/main.rs`: a wrapper around the raw
pointer string after `FromStr` normalisation. -/
structure Pointer where
  inner : String

/-- `Pointer::from_str`: the empty string and the two-character spellings
`''` and `""` normalise to the empty pointer; otherwise every occurrence
of `\/` is replaced by `/`.  (The Rust code never returns `Err`.) -/
def Pointer.from_str (s : String) : Pointer :=
  if s = "" ∨ s = sqsq ∨ s = "\"\"" then ⟨""⟩
  else ⟨String.mk (replace2 '\\' '/' ['/'] s.data)⟩

/-- Token decoding applied to each segment between slashes:
`.replace("~1", "/").replace("~0", "~")`. -/
def decodeToken (cs : List Char) : List Char :=
  replace2 '~' '0' ['~'] (replace2 '~' '1' ['/'] cs)

/-- `pointer.split('/').skip(1).map(decode)`: the reference-token list of
a (non-empty, slash-led) pointer string. -/
def pointer_tokens (p : String) : List String :=
  ((splitChar '/' p.data).drop 1).map (fun cs => String.mk (decodeToken cs))

/-- The scalar (wildcard) arm of `pointer_inner`: build a fresh one-entry
map `{token: Null}`, overwrite the scalar with `Object(map)`, then
re-match on the overwritten value — the `Object` arm re-runs
`entry(..).or_insert(Null)` and returns `get_mut(&token)`; the final
wildcard arm returns `None`.  The result is the new target value together
with the value the returned handle points at (at key `token`). -/
def scalarArm (t : String) : Value × Option Value :=
  let m := orInsertNull t []
  let other := Value.object m
  match other with
  | Value.object m2 =>
    let m3 := orInsertNull t m2
    (Value.object m3, mapGet t m3)
  | v => (v, none)

/-- The `try_fold` of `pointer_inner` over the token list, fused with the
caller's single write at the final handle (`*val = newVal` in `do_set`).
Returns the document as it stands after traversal (including any
modification made before a failure) and whether a handle was produced.
* `Object`: `entry(t).or_insert(Null)` then descend into `get_mut(t)`.
* `Array`: descend at `parse_index(t)` when in bounds, else fail.
* scalars: the `scalarArm` replacement, then descend into the handle. -/
def pointer_mut_go (v : Value) (tokens : List String) (newVal : Value) : Value × Bool :=
  match tokens, v with
  | [], _ => (newVal, true)
  | t :: rest, Value.object m =>
    let m1 := orInsertNull t m
    match mapGet t m1 with
    | some child =>
      let r := pointer_mut_go child rest newVal
      (Value.object (mapSet t r.1 m1), r.2)
    | none => (Value.object m1, false)
  | t :: rest, Value.array l =>
    match parse_index t with
    | some i =>
      match l[i]? with
      | some child =>
        let r := pointer_mut_go child rest newVal
        (Value.array (l.set i r.1), r.2)
      | none => (Value.array l, false)
    | none => (Value.array l, false)
  | t :: rest, _ =>
    match scalarArm t with
    | (nt, some child) =>
      let r := pointer_mut_go child rest newVal
      (match nt with
       | Value.object m3 => Value.object (mapSet t r.1 m3)
       | other => other, r.2)
    | (nt, none) => (nt, false)

/-- `pointer_mut` (the checks on the raw pointer string) fused with the
caller's write: empty pointer means the root handle (the whole document
becomes `newVal`); a pointer not starting with `/` fails; otherwise fold
`pointer_inner` over the decoded tokens. -/
def pointer_mut_set (v : Value) (pointer : String) (newVal : Value) : Value × Bool :=
  if pointer = "" then (newVal, true)
  else if !startsWithChar '/' pointer then (v, false)
  else pointer_mut_go v (pointer_tokens pointer) newVal

/-- `do_set`: resolve mutably and write; on success render the updated
document, on failure render the document as it stands (the code prints
`value` in both arms of the match). -/
def do_set (doc : Value) (rawPointer : String) (newVal : Value) : Value :=
  (pointer_mut_set doc (Pointer.from_str rawPointer).inner newVal).1

/-- serde_json's read-only `Value::pointer` traversal over the tokens:
`Object` looks the token up, `Array` requires a valid in-bounds index,
scalars fail. -/
def pointer_get_go (v : Value) (tokens : List String) : Option Value :=
  match tokens, v with
  | [], _ => some v
  | t :: rest, Value.object m =>
    match mapGet t m with
    | some child => pointer_get_go child rest
    | none => none
  | t :: rest, Value.array l =>
    match parse_index t with
    | some i =>
      match l[i]? with
      | some child => pointer_get_go child rest
      | none => none
    | none => none
  | _ :: _, _ => none

/-- serde_json's `Value::pointer`, as called by `do_get`. -/
def pointer_get (v : Value) (pointer : String) : Option Value :=
  if pointer = "" then some v
  else if !startsWithChar '/' pointer then none
  else pointer_get_go v (pointer_tokens pointer)

/-- `do_get`: resolve read-only; `none` is rendered as empty output. -/
def do_get (doc : Value) (rawPointer : String) : Option Value :=
  pointer_get doc (Pointer.from_str rawPointer).inner

-- Shorthand for small concrete numbers used in examples.
def n1 : Value := Value.number (JNum.posInt 1)
def n2 : Value := Value.number (JNum.posInt 2)
def n9 : Value := Value.number (JNum.posInt 9)

/-- Is the value one of the four scalar variants (no children)? -/
def isScalar : Value → Bool
  | Value.null => true
  | Value.bool _ => true
  | Value.number _ => true
  | Value.string _ => true
  | Value.array _ => false
  | Value.object _ => false

/-- The nested-object document `{t1: {t2: ... {tn: v}}}` built by
auto-vivification along a chain of tokens. -/
def nest : List String → Value → Value
  | [], v => v
  | t :: ts, v => Value.object [(t, nest ts v)]

mutual

/-- `Value`'s `PartialEq` (`first == second` in `do_compare`):
structural equality; numbers by `numEq`; arrays elementwise in order;
maps by equal size plus every entry of the left found (by key) with an
equal value in the right — insertion order is irrelevant. -/
def valueEq : Value → Value → Bool
  | Value.null, Value.null => true
  | Value.bool a, Value.bool b => a == b
  | Value.number a, Value.number b => numEq a b
  | Value.string a, Value.string b => a == b
  | Value.array a, Value.array b => listEq a b
  | Value.object a, Value.object b => (a.length == b.length) && allIn a b
  | _, _ => false
termination_by v _ => sizeOf v

/-- Elementwise `PartialEq` on sequences (`Vec<Value>`). -/
def listEq : List Value → List Value → Bool
  | [], [] => true
  | a :: as2, b :: bs => valueEq a b && listEq as2 bs
  | _, _ => false
termination_by l _ => sizeOf l

/-- Every entry of the first map is present (by key) in the second with
an equal value: the `iter().all(..)` half of map `PartialEq`. -/
def allIn : List (String × Value) → List (String × Value) → Bool
  | [], _ => true
  | (k, v) :: rest, b =>
    (match mapGet k b with
     | some v2 => valueEq v v2
     | none => false) && allIn rest b
termination_by l _ => sizeOf l

end

/-- `do_compare`: `Ok` (printed `true`, exit 0) iff the two resolved
documents are `PartialEq`-equal; rendered here as the Bool. -/
def do_compare (first second : Value) : Bool :=
  valueEq first second

/-- The keys of a map, in insertion order. -/
def keysOf (m : List (String × Value)) : List String :=
  m.map Prod.fst

/-- Uniqueness of map keys, as a Boolean. -/
def nodupKeys : List (String × Value) → Bool
  | [] => true
  | (k, _) :: rest => !containsKey k rest && nodupKeys rest

mutual

/-- Well-formedness of the values reachable in this program (every value
built by serde_json's parser or by the mutator): object keys are unique
and no float is `NaN` (JSON text cannot denote `NaN`). -/
def wf : Value → Bool
  | Value.null => true
  | Value.bool _ => true
  | Value.number (JNum.posInt _) => true
  | Value.number (JNum.negInt _) => true
  | Value.number (JNum.float bits) => !isNaN64 bits
  | Value.string _ => true
  | Value.array l => wfL l
  | Value.object m => nodupKeys m && wfP m
termination_by v => sizeOf v

/-- All elements of a sequence are well-formed. -/
def wfL : List Value → Bool
  | [] => true
  | v :: rest => wf v && wfL rest
termination_by l => sizeOf l

/-- All values of a map are well-formed. -/
def wfP : List (String × Value) → Bool
  | [] => true
  | (_, v) :: rest => wf v && wfP rest
termination_by l => sizeOf l

end

/-- The collaborators of the input-resolution functions: serde_json's
`from_str::<Value>` and the process environment (`std::env::var`),
abstracted as oracles.  `from_str::<Map<String, Value>>` (the type at
which `variable_or_object` parses the raw token) succeeds exactly when
the text parses as a JSON object; it is derived below as `parseMap`. -/
structure ParseEnv where
  parseValue : String → Option Value
  envVar : String → Option String

/-- `from_str::<Map<String, Value>>`: the token text must parse as a
JSON object. -/
def parseMap (p : ParseEnv) (s : String) : Option (List (String × Value)) :=
  match p.parseValue s with
  | some (Value.object m) => some m
  | _ => none

/-- `variable_or_object`: parse the raw token as a JSON *object*; on
failure look the token up as an environment variable (empty string when
unset) and parse that as a JSON value of any variant; on failure fall
back to the empty object. -/
def variable_or_object (p : ParseEnv) (input : String) : Value :=
  match parseMap p input with
  | some m => Value.object m
  | none =>
    let item := (p.envVar input).getD ""
    (p.parseValue item).getD (Value.object [])

/-- `variable_or_value`: parse the raw token as a JSON value of any
variant; on failure look it up as an environment variable and parse
that; on failure fall back to `Null`. -/
def variable_or_value (p : ParseEnv) (input : String) : Value :=
  match p.parseValue input with
  | some v => v
  | none =>
    let item := (p.envVar input).getD ""
    (p.parseValue item).getD Value.null

/-- Modelled from the spec: the index grammar of section 3 — a token is a
valid array index iff it is `"0"` or matches `[1-9][0-9]*`.  Used to
compare the spec's grammar with the code's `parse_index`. -/
def specIndexL : List Char → Bool
  | [] => false
  | c :: cs =>
    if c == '0' then cs.isEmpty
    else (decide (49 ≤ c.toNat) && decide (c.toNat ≤ 57)) && cs.all isDigitC

/-- The spec's index grammar on a string token. -/
def specArrayIndex (s : String) : Bool :=
  specIndexL s.data

-- The document `{"key": "number"}` of the repository's own tests.
def keyDoc : Value := Value.object [("key", Value.string "number")]

/-- The IEEE-754 bit pattern of the double `1.0`: what serde_json stores
for the parsed literal `1.0`. -/
def float_1_0 : Nat := 0x3FF0000000000000

-- A concrete oracle: `"[1]"` parses as the JSON array `[1]`; the
-- environment is empty.
def cEnvC5 : ParseEnv where
  parseValue := fun s => if s = "[1]" then some (Value.array [n1]) else none
  envVar := fun _ => none

-- A concrete oracle: `"d"` parses as the JSON object `{"a": null}`.
def wEnvC5 : ParseEnv where
  parseValue := fun s => if s = "d" then some (Value.object [("a", Value.null)]) else none
  envVar := fun _ => none

/-! ### Association-list map lemmas -/

theorem keysOf_cons (k : String) (v : Value) (m : List (String × Value)) :
    keysOf ((k, v) :: m) = k :: keysOf m := rfl

theorem containsKey_iff_mem (k : String) (m : List (String × Value)) :
    containsKey k m = true ↔ k ∈ keysOf m := by
  induction m with
  | nil => simp [containsKey, keysOf]
  | cons kv rest ih =>
    obtain ⟨k2, v⟩ := kv
    by_cases h : k = k2
    · simp [containsKey, keysOf, h]
    · simp [containsKey, keysOf, h, ih]

theorem mapGet_isSome_iff (k : String) (m : List (String × Value)) :
    (mapGet k m).isSome = true ↔ containsKey k m = true := by
  induction m with
  | nil => simp [mapGet, containsKey]
  | cons kv rest ih =>
    obtain ⟨k2, v⟩ := kv
    by_cases h : k = k2 <;> simp [mapGet, containsKey, h, ih]

theorem mapGet_append_self (k : String) (m : List (String × Value))
    (h : containsKey k m = false) :
    mapGet k (m ++ [(k, Value.null)]) = some Value.null := by
  induction m with
  | nil => simp [mapGet]
  | cons kv rest ih =>
    obtain ⟨k2, v⟩ := kv
    by_cases hk : k = k2
    · simp [containsKey, hk] at h
    · simp [containsKey, hk] at h
      simpa [mapGet, hk] using ih h

theorem mapSet_self (k : String) (v : Value) (m : List (String × Value))
    (h : mapGet k m = some v) : mapSet k v m = m := by
  induction m with
  | nil => simp [mapGet] at h
  | cons kv rest ih =>
    obtain ⟨k2, v2⟩ := kv
    by_cases hk : k = k2
    · simp [mapGet, hk] at h
      simp [mapSet, hk, h]
    · simp [mapGet, hk] at h
      simp [mapSet, hk, ih h]

theorem listSet_self (l : List Value) (i : Nat) (c : Value)
    (h : l[i]? = some c) : l.set i c = l := by
  induction l generalizing i with
  | nil => simp at h
  | cons a rest ih =>
    cases i with
    | zero =>
      simp at h
      simp [List.set, h]
    | succ j =>
      simp at h
      simp [List.set, ih j h]

/-! ### Mutator lemmas -/

theorem scalarArm_eq (t : String) :
    scalarArm t = (Value.object [(t, Value.null)], some Value.null) := by
  simp [scalarArm, orInsertNull, containsKey, mapGet]

/-- Traversal starting from `Null` (the value auto-vivification inserts)
always succeeds and builds exactly the nested-object chain. -/
theorem pointer_mut_go_null (ts : List String) (nv : Value) :
    pointer_mut_go Value.null ts nv = (nest ts nv, true) := by
  induction ts with
  | nil => simp [pointer_mut_go, nest]
  | cons t rest ih =>
    simp [pointer_mut_go, scalarArm_eq, ih, nest, mapSet]

/-- The scalar arm of `pointer_inner`: the scalar is discarded, replaced
by `{t: Null}`, and traversal continues (successfully) inside. -/
theorem pointer_mut_go_scalar (v : Value) (t : String) (ts : List String) (nv : Value)
    (h : isScalar v = true) :
    pointer_mut_go v (t :: ts) nv
      = (Value.object [(t, (pointer_mut_go Value.null ts nv).1)], true) := by
  cases v with
  | null => simp [pointer_mut_go, scalarArm_eq, mapSet, pointer_mut_go_null, nest]
  | bool b => simp [pointer_mut_go, scalarArm_eq, mapSet, pointer_mut_go_null, nest]
  | number n => simp [pointer_mut_go, scalarArm_eq, mapSet, pointer_mut_go_null, nest]
  | string s => simp [pointer_mut_go, scalarArm_eq, mapSet, pointer_mut_go_null, nest]
  | array l => simp [isScalar] at h
  | object m => simp [isScalar] at h

/-- Failure of the mutable traversal leaves the document unchanged: an
`Object` step only inserts when its key is absent, and after any
insertion (or scalar replacement) the rest of the path runs inside fresh
structure and cannot fail; so a failing `Array` step is only ever reached
through pre-existing, unmodified structure. -/
theorem pointer_mut_go_fail (ts : List String) (v nv : Value)
    (h : (pointer_mut_go v ts nv).2 = false) :
    (pointer_mut_go v ts nv).1 = v := by
  induction ts generalizing v with
  | nil => simp [pointer_mut_go] at h
  | cons t rest ih =>
    cases v with
    | object m =>
      by_cases hc : containsKey t m = true
      · cases hg : mapGet t m with
        | none =>
          have hs := (mapGet_isSome_iff t m).2 hc
          simp [hg] at hs
        | some child =>
          have horin : orInsertNull t m = m := by simp [orInsertNull, hc]
          simp [pointer_mut_go, horin, hg] at h ⊢
          rw [ih child h, mapSet_self t child m hg]
      · have hcf : containsKey t m = false := by simpa using hc
        have horin : orInsertNull t m = m ++ [(t, Value.null)] := by
          simp [orInsertNull, hcf]
        have hget := mapGet_append_self t m hcf
        simp [pointer_mut_go, horin, hget, pointer_mut_go_null] at h
    | array l =>
      cases hp : parse_index t with
      | none => simp [pointer_mut_go, hp]
      | some i =>
        cases hg : l[i]? with
        | none => simp [pointer_mut_go, hp, hg]
        | some child =>
          simp [pointer_mut_go, hp, hg] at h ⊢
          rw [ih child h, listSet_self l i child hg]
    | null => simp [pointer_mut_go, scalarArm_eq, pointer_mut_go_null] at h
    | bool b => simp [pointer_mut_go, scalarArm_eq, pointer_mut_go_null] at h
    | number n => simp [pointer_mut_go, scalarArm_eq, pointer_mut_go_null] at h
    | string s => simp [pointer_mut_go, scalarArm_eq, pointer_mut_go_null] at h

/-- `pointer_mut` failing means `do_set` renders the input document
byte-for-byte: no partial modification survives a failure. -/
theorem pointer_mut_set_fail (d : Value) (p : String) (nv : Value)
    (h : (pointer_mut_set d p nv).2 = false) :
    (pointer_mut_set d p nv).1 = d := by
  by_cases he : p = ""
  · simp [pointer_mut_set, he] at h
  · by_cases hs : startsWithChar '/' p = true
    · simp [pointer_mut_set, he, hs] at h ⊢
      exact pointer_mut_go_fail _ _ _ h
    · simp only [Bool.not_eq_true] at hs
      simp [pointer_mut_set, he, hs]

/-- C1 (counterexample): the claimed scenario is impossible — there is no
document, pointer and value for which the mutation fails yet the rendered
document differs from the input.  Auto-vivification inserts only at
absent `Object` keys, and traversal after any insertion continues inside
fresh structure that can never be an `Array`, so a failing `Array`-index
step is only reached through unmodified pre-existing structure. -/
theorem C1_partial_modification_impossible :
    ¬ ∃ (d : Value) (p : String) (nv : Value),
        (pointer_mut_set d p nv).2 = false ∧ (pointer_mut_set d p nv).1 ≠ d := by
  rintro ⟨d, p, nv, hfail, hne⟩
  exact hne (pointer_mut_set_fail d p nv hfail)

/-- C1 (amended): `resolve_mut` can fail only without any prior
auto-vivification; whenever `pointer_mut` returns nothing, the document
rendered by `set` equals the input exactly (no snapshot-and-restore is
performed, and none is needed). -/
theorem C1_set_failure_returns_input (d : Value) (raw : String) (nv : Value)
    (h : (pointer_mut_set d (Pointer.from_str raw).inner nv).2 = false) :
    do_set d raw nv = d :=
  pointer_mut_set_fail d (Pointer.from_str raw).inner nv h

/-- C1 (witness): a failing array-index step (`/arr/9` into a one-element
array) renders the input unchanged. -/
theorem C1_set_failure_witness :
    do_set (Value.object [("arr", Value.array [Value.null])]) "/arr/9" n2
      = Value.object [("arr", Value.array [Value.null])] :=
  C1_set_failure_returns_input
    (Value.object [("arr", Value.array [Value.null])]) "/arr/9" n2 rfl

/-- C2: a scalar met at a path segment is unconditionally replaced by an
object holding the current token bound to `Null` and traversal continues
successfully; consequently, starting from an empty object any token chain
builds the nested-object document, e.g. `set({}, "/a/b", 1)` yields
`{"a": {"b": 1}}`. -/
theorem C2_scalar_replacement_builds_nested_objects :
    (∀ (v : Value) (t : String) (ts : List String) (nv : Value),
        isScalar v = true →
        pointer_mut_go v (t :: ts) nv
          = (Value.object [(t, (pointer_mut_go Value.null ts nv).1)], true)) ∧
    (∀ (t : String) (ts : List String) (nv : Value),
        pointer_mut_go (Value.object []) (t :: ts) nv = (nest (t :: ts) nv, true)) ∧
    do_set (Value.object []) "/a/b" n1
      = Value.object [("a", Value.object [("b", n1)])] := by
  refine ⟨pointer_mut_go_scalar, fun t ts nv => ?_, rfl⟩
  simp [pointer_mut_go, orInsertNull, containsKey, mapGet, pointer_mut_go_null,
    mapSet, nest]

/-- C2 (witness): the scalar branch applied to the string `"x"` at token
`"a"` with final value `1`. -/
theorem C2_scalar_replacement_witness :
    isScalar (Value.string "x") = true ∧
    pointer_mut_go (Value.string "x") ["a"] n1 = (Value.object [("a", n1)], true) :=
  ⟨rfl, C2_scalar_replacement_builds_nested_objects.1 (Value.string "x") "a" [] n1 rfl⟩

/-- C3: a token that is not a syntactically valid in-bounds index of an
`Array` makes the mutation step fail, returning the array unchanged in
length and contents — arrays are never auto-extended; in particular
`set({"k": [1, 2]}, "/k/5", 9)` leaves the document unchanged. -/
theorem C3_arrays_never_auto_extended :
    (∀ (l : List Value) (t : String) (ts : List String) (nv : Value),
        (∀ i, parse_index t = some i → l.length ≤ i) →
        pointer_mut_go (Value.array l) (t :: ts) nv = (Value.array l, false)) ∧
    do_set (Value.object [("k", Value.array [n1, n2])]) "/k/5" n9
      = Value.object [("k", Value.array [n1, n2])] := by
  refine ⟨fun l t ts nv h => ?_, rfl⟩
  cases hp : parse_index t with
  | none => simp [pointer_mut_go, hp]
  | some i =>
    have hg : l[i]? = none := List.getElem?_eq_none (h i hp)
    simp [pointer_mut_go, hp, hg]

/-- C3 (witness): token `"5"` against the two-element array `[1, 2]`. -/
theorem C3_arrays_never_auto_extended_witness :
    pointer_mut_go (Value.array [n1, n2]) ["5"] n9 = (Value.array [n1, n2], false) :=
  C3_arrays_never_auto_extended.1 [n1, n2] "5" [] n9 (fun i hi => by
    rw [show parse_index "5" = some 5 from rfl] at hi
    injection hi with h5
    subst h5
    decide)

/-- C6 (counterexample): the raw pointer `\/key` is non-empty, does not
start with `/`, and is not a recognised empty spelling, yet `get` finds
the value and `set` modifies the document — because `Pointer::from_str`
first rewrites `\/` to `/`. -/
theorem C6_backslash_slash_cx :
    ("\\/key" : String) ≠ "" ∧ ("\\/key" : String) ≠ sqsq ∧
    ("\\/key" : String) ≠ "\"\"" ∧
    startsWithChar '/' "\\/key" = false ∧
    do_get keyDoc "\\/key" = some (Value.string "number") ∧
    do_set keyDoc "\\/key" n1 = Value.object [("key", n1)] :=
  ⟨by decide, by decide, by decide, rfl, rfl, rfl⟩

/-- C6 (amended): for every pointer string whose `FromStr`-normalised
form (after the `\/` → `/` rewrite and the empty-spelling collapse) is
non-empty and does not start with `/`, `get` returns nothing and `set`
returns the document completely unchanged. -/
theorem C6_malformed_pointer_total_failure (d : Value) (s : String) (nv : Value)
    (h1 : (Pointer.from_str s).inner ≠ "")
    (h2 : startsWithChar '/' (Pointer.from_str s).inner = false) :
    do_get d s = none ∧ do_set d s nv = d := by
  constructor
  · simp [do_get, pointer_get, h1, h2]
  · simp [do_set, pointer_mut_set, h1, h2]

/-- C6 (witness): the repository's own test case — pointer `invalid key`
on `{"key": "number"}`. -/
theorem C6_malformed_pointer_witness :
    do_get keyDoc "invalid key" = none ∧ do_set keyDoc "invalid key" n1 = keyDoc :=
  C6_malformed_pointer_total_failure keyDoc "invalid key" n1 (by decide) (by decide)

/-- C7: the pointer spellings `""`, `''` and `""""` (two double quotes)
all normalise to the empty pointer; the empty token sequence resolves
mutably to the document root, so `set` with any of these spellings
replaces the entire document with the written value. -/
theorem C7_empty_pointer_replaces_root :
    (Pointer.from_str "").inner = "" ∧
    (Pointer.from_str sqsq).inner = "" ∧
    (Pointer.from_str "\"\"").inner = "" ∧
    (∀ (d nv : Value), pointer_mut_go d [] nv = (nv, true)) ∧
    (∀ (d nv : Value), pointer_mut_set d "" nv = (nv, true)) ∧
    (∀ (d nv : Value),
        do_set d "" nv = nv ∧ do_set d sqsq nv = nv ∧ do_set d "\"\"" nv = nv) :=
  ⟨rfl, rfl, rfl, fun _ _ => rfl, fun _ _ => rfl, fun _ _ => ⟨rfl, rfl, rfl⟩⟩

/-- C4 (counterexample): the comparator used by `do_compare` does not
compare numbers by numeric value — the documents `{"a": 1}` (integer)
and `{"a": 1.0}` (float) compare unequal, because serde_json's derived
`PartialEq` on its number representation never equates different
variants. -/
theorem C4_integer_float_unequal_cx :
    do_compare (Value.object [("a", Value.number (JNum.posInt 1))])
      (Value.object [("a", Value.number (JNum.float float_1_0))]) = false := by
  simp [do_compare, valueEq, allIn, mapGet, numEq]

/-- C4 (amended): numbers compare by internal representation variant —
an unsigned integer is never equal to a float (so `1` and `1.0` are
unequal), while same-variant integers compare by value. -/
theorem C4_numbers_compare_by_representation :
    ∀ (a b : Nat) (c : Int),
      valueEq (Value.number (JNum.posInt a)) (Value.number (JNum.float b)) = false ∧
      valueEq (Value.number (JNum.negInt c)) (Value.number (JNum.float b)) = false ∧
      valueEq (Value.number (JNum.posInt a)) (Value.number (JNum.posInt b)) = (a == b) := by
  intro a b c
  refine ⟨?_, ?_, ?_⟩ <;> simp [valueEq, numEq]

/-- C5 (counterexample): a command-line document token that parses as
JSON of a non-object variant is *not* used: `variable_or_object` parses
the token at map type, so the array token `[1]` falls through to the
(empty) environment and lands on the empty-object default instead of the
parsed array. -/
theorem C5_document_token_not_any_variant_cx :
    cEnvC5.parseValue "[1]" = some (Value.array [n1]) ∧
    variable_or_object cEnvC5 "[1]" = Value.object [] ∧
    Value.object [] ≠ Value.array [n1] :=
  ⟨rfl, rfl, by simp⟩

/-- C5 (amended): for get/set/compare the document token is used directly
only when it parses as a JSON *object*; otherwise (and only then) the
token is treated as an environment-variable name whose contents may parse
as any variant, with the empty object as final fallback — while the type
classifier's `variable_or_value` accepts any variant directly, with
`Null` as final fallback. -/
theorem C5_input_resolution_order :
    ∀ (p : ParseEnv) (s : String),
      (∀ m, p.parseValue s = some (Value.object m) →
          variable_or_object p s = Value.object m) ∧
      (parseMap p s = none →
          variable_or_object p s
            = (p.parseValue ((p.envVar s).getD "")).getD (Value.object [])) ∧
      (∀ v, p.parseValue s = some v → variable_or_value p s = v) ∧
      (p.parseValue s = none →
          variable_or_value p s
            = (p.parseValue ((p.envVar s).getD "")).getD Value.null) := by
  intro p s
  refine ⟨fun m hm => ?_, fun hn => ?_, fun v hv => ?_, fun hn => ?_⟩
  · simp [variable_or_object, parseMap, hm]
  · simp [variable_or_object, hn]
  · simp [variable_or_value, hv]
  · simp [variable_or_value, hn]

/-- C5 (witness): a token parsing as an object is used directly by both
resolution functions. -/
theorem C5_input_resolution_witness :
    variable_or_object wEnvC5 "d" = Value.object [("a", Value.null)] ∧
    variable_or_value wEnvC5 "d" = Value.object [("a", Value.null)] :=
  ⟨(C5_input_resolution_order wEnvC5 "d").1 [("a", Value.null)] rfl,
   (C5_input_resolution_order wEnvC5 "d").2.2.1 (Value.object [("a", Value.null)]) rfl⟩

/-- C8 (counterexample): the twenty-digit token `18446744073709551616`
(that is `2^64`) matches the spec's `[1-9][0-9]*` grammar, yet
`parse_index` rejects it — `str::parse::<usize>()` fails on overflow —
so using it against an `Array` makes the mutation fail. -/
theorem C8_index_grammar_overflow_cx :
    specArrayIndex "18446744073709551616" = true ∧
    parse_index "18446744073709551616" = none ∧
    pointer_mut_go (Value.array [n1]) ["18446744073709551616"] n2
      = (Value.array [n1], false) :=
  ⟨by decide, by decide, rfl⟩

/-- C8 (amended): a token is accepted by `parse_index` iff it is `"0"`
or matches `[1-9][0-9]*` *and* its numeric value fits in a 64-bit
`usize`; the accepted value is the digit string's numeric value. -/
theorem C8_parse_index_matches_grammar_up_to_overflow :
    ∀ s : String,
      parse_index s =
        if specArrayIndex s = true ∧ digitsVal s.data < 2 ^ 64
        then some (digitsVal s.data) else none := by
  intro s
  obtain ⟨cs⟩ := s
  cases cs with
  | nil => simp [parse_index, startsWithChar, parseU64, specArrayIndex, specIndexL]
  | cons c rest =>
    by_cases hplus : c = '+'
    · subst hplus
      simp [parse_index, startsWithChar, specArrayIndex, specIndexL,
        show (('+' : Char) == '+') = true from rfl,
        show (('+' : Char) == '0') = false from rfl,
        show decide (49 ≤ ('+' : Char).toNat) = false from rfl]
    · have hplusb : (c == '+') = false := by simp [hplus]
      by_cases hzero : c = '0'
      · subst hzero
        cases rest with
        | nil => decide
        | cons d rest2 =>
          simp [parse_index, startsWithChar, specArrayIndex, specIndexL,
            show (('0' : Char) == '+') = false from rfl,
            show (('0' : Char) == '0') = true from rfl]
      · have hzerob : (c == '0') = false := by simp [hzero]
        cases hall : (c :: rest).all isDigitC with
        | false =>
          have hx : (c :: rest).all isDigitC = false := hall
          rw [List.all_cons] at hx
          have hspec : specIndexL (c :: rest) = false := by
            rcases Bool.and_eq_false_iff.1 hx with hd | hr
            · have : (decide (49 ≤ c.toNat) && decide (c.toNat ≤ 57)) = false := by
                simp [isDigitC] at hd ⊢
                omega
              simp [specIndexL, hzerob, this]
            · simp [specIndexL, hzerob, hr]
          simp [parse_index, startsWithChar, hplusb, hzerob, parseU64, hall,
            specArrayIndex, hspec]
        | true =>
          have hx : (c :: rest).all isDigitC = true := hall
          rw [List.all_cons, Bool.and_eq_true] at hx
          have hc48 : 48 ≤ c.toNat ∧ c.toNat ≤ 57 := by
            have := hx.1
            simp [isDigitC] at this
            exact this
          have hc49 : 49 ≤ c.toNat := by
            rcases Nat.lt_or_ge c.toNat 49 with hlt | hge
            · exfalso
              have h48 : c.toNat = 48 := by omega
              apply hzero
              have := congrArg Char.ofNat h48
              rwa [Char.ofNat_toNat] at this
            · exact hge
          have hspec : specIndexL (c :: rest) = true := by
            simp [specIndexL, hzerob, hx.2]
            omega
          simp [parse_index, startsWithChar, hplusb, hzerob, parseU64,
            specArrayIndex, hspec, hall]

/-! ### Comparator lemmas -/

theorem mapGet_mem (k : String) (v : Value) (m : List (String × Value))
    (h : mapGet k m = some v) : (k, v) ∈ m := by
  induction m with
  | nil => simp [mapGet] at h
  | cons kv rest ih =>
    obtain ⟨k2, v2⟩ := kv
    by_cases hk : k = k2
    · subst hk
      simp [mapGet] at h
      subst h
      exact List.mem_cons_self _ _
    · simp [mapGet, hk] at h
      exact List.mem_cons_of_mem _ (ih h)

theorem containsKey_of_mem (k : String) (v : Value) (m : List (String × Value))
    (h : (k, v) ∈ m) : containsKey k m = true := by
  induction m with
  | nil => simp at h
  | cons kv rest ih =>
    obtain ⟨k2, v2⟩ := kv
    by_cases hk : k = k2
    · simp [containsKey, hk]
    · rcases List.mem_cons.1 h with heq | hmem
      · rw [Prod.mk.injEq] at heq
        exact absurd heq.1 hk
      · simpa [containsKey, hk] using ih hmem

theorem mem_mapGet (k : String) (v : Value) (m : List (String × Value))
    (hnd : nodupKeys m = true) (h : (k, v) ∈ m) : mapGet k m = some v := by
  induction m with
  | nil => simp at h
  | cons kv rest ih =>
    obtain ⟨k2, v2⟩ := kv
    rw [nodupKeys, Bool.and_eq_true] at hnd
    rcases List.mem_cons.1 h with heq | hmem
    · rw [Prod.mk.injEq] at heq
      obtain ⟨rfl, rfl⟩ := heq
      simp [mapGet]
    · by_cases hk : k = k2
      · subst hk
        have hc := containsKey_of_mem k v rest hmem
        rw [hc] at hnd
        simp at hnd
      · simpa [mapGet, hk] using ih hnd.2 hmem

theorem mem_keysOf_of_mapGet {k : String} {v : Value} {m : List (String × Value)}
    (h : mapGet k m = some v) : k ∈ keysOf m :=
  List.mem_map_of_mem Prod.fst (mapGet_mem k v m h)

theorem length_keysOf (m : List (String × Value)) : (keysOf m).length = m.length := by
  simp [keysOf]

theorem nodupKeys_iff (m : List (String × Value)) :
    nodupKeys m = true ↔ (keysOf m).Nodup := by
  induction m with
  | nil => simp [nodupKeys, keysOf]
  | cons kv rest ih =>
    obtain ⟨k, v⟩ := kv
    rw [nodupKeys, Bool.and_eq_true, keysOf_cons, List.nodup_cons]
    constructor
    · rintro ⟨h1, h2⟩
      refine ⟨fun hmem => ?_, ih.1 h2⟩
      rw [← containsKey_iff_mem] at hmem
      rw [hmem] at h1
      simp at h1
    · rintro ⟨h1, h2⟩
      refine ⟨?_, ih.2 h2⟩
      cases hck : containsKey k rest with
      | false => simp
      | true => exact absurd ((containsKey_iff_mem k rest).1 hck) h1

theorem allIn_iff (a b : List (String × Value)) :
    allIn a b = true ↔
      ∀ kv ∈ a, ∃ v2, mapGet kv.1 b = some v2 ∧ valueEq kv.2 v2 = true := by
  induction a with
  | nil => simp [allIn]
  | cons kv rest ih =>
    obtain ⟨k, v⟩ := kv
    have hstep : allIn ((k, v) :: rest) b
        = ((match mapGet k b with
            | some v2 => valueEq v v2
            | none => false) && allIn rest b) := by
      simp [allIn]
    cases hg : mapGet k b with
    | none =>
      constructor
      · intro h
        rw [hstep, hg] at h
        simp at h
      · intro h
        exfalso
        rcases h (k, v) (List.mem_cons_self _ _) with ⟨v2, hv2, _⟩
        rw [hg] at hv2
        cases hv2
    | some v2 =>
      constructor
      · intro h
        rw [hstep, hg, Bool.and_eq_true] at h
        intro kv hmem
        rcases List.mem_cons.1 hmem with rfl | hmem2
        · exact ⟨v2, hg, h.1⟩
        · exact (ih.1 h.2) kv hmem2
      · intro h
        rw [hstep, hg, Bool.and_eq_true]
        constructor
        · rcases h (k, v) (List.mem_cons_self _ _) with ⟨v3, hv3, he⟩
          rw [hg] at hv3
          injection hv3 with hv3
          subst hv3
          exact he
        · exact ih.2 fun kv hm => h kv (List.mem_cons_of_mem _ hm)

theorem wf_object {m : List (String × Value)} (h : wf (Value.object m) = true) :
    nodupKeys m = true ∧ wfP m = true := by
  simpa [wf] using h

theorem wf_array {l : List Value} (h : wf (Value.array l) = true) : wfL l = true := by
  simpa [wf] using h

theorem wfP_mem {m : List (String × Value)} {k : String} {v : Value}
    (hw : wfP m = true) (h : (k, v) ∈ m) : wf v = true := by
  induction m with
  | nil => simp at h
  | cons kv rest ih =>
    obtain ⟨k2, v2⟩ := kv
    rw [wfP, Bool.and_eq_true] at hw
    rcases List.mem_cons.1 h with heq | hmem
    · rw [Prod.mk.injEq] at heq
      obtain ⟨_, rfl⟩ := heq
      exact hw.1
    · exact ih hw.2 hmem

theorem wfL_mem {l : List Value} {v : Value}
    (hw : wfL l = true) (h : v ∈ l) : wf v = true := by
  induction l with
  | nil => simp at h
  | cons x rest ih =>
    rw [wfL, Bool.and_eq_true] at hw
    rcases List.mem_cons.1 h with rfl | hmem
    · exact hw.1
    · exact ih hw.2 hmem

theorem beqComm {α : Type} [BEq α] [LawfulBEq α] (a b : α) : (a == b) = (b == a) := by
  by_cases h : a = b
  · subst h; rfl
  · rw [beq_eq_false_iff_ne.2 h, beq_eq_false_iff_ne.2 (Ne.symm h)]

theorem f64Eq_refl (a : Nat) (h : isNaN64 a = false) : f64Eq a a = true := by
  simp [f64Eq, h]

theorem f64Eq_symm (a b : Nat) : f64Eq a b = f64Eq b a := by
  by_cases hab : a = b
  · subst hab; rfl
  · simp [f64Eq, Bool.or_comm, Bool.and_comm, beqComm a b]

theorem numEq_refl (n : JNum) (h : wf (Value.number n) = true) : numEq n n = true := by
  cases n with
  | posInt a => simp [numEq]
  | negInt a => simp [numEq]
  | float bits =>
    simp [wf] at h
    simp [numEq, f64Eq_refl bits h]

theorem numEq_symm (m n : JNum) : numEq m n = numEq n m := by
  cases m with
  | posInt a =>
    cases n with
    | posInt b => exact beqComm a b
    | negInt b => rfl
    | float b => rfl
  | negInt a =>
    cases n with
    | posInt b => rfl
    | negInt b => exact beqComm a b
    | float b => rfl
  | float a =>
    cases n with
    | posInt b => rfl
    | negInt b => rfl
    | float b => exact f64Eq_symm a b

theorem value_sizeOf_pos (v : Value) : 0 < sizeOf v := by
  cases v <;> simp

/-- Reflexivity of `valueEq` on well-formed values (no `NaN` payloads,
unique object keys), by strong induction on size. -/
theorem valueEq_refl_aux :
    ∀ (n : Nat) (v : Value), sizeOf v ≤ n → wf v = true → valueEq v v = true := by
  intro n
  induction n with
  | zero =>
    intro v hv _
    exact absurd hv (by have := value_sizeOf_pos v; omega)
  | succ k ih =>
    intro v hv hw
    cases v with
    | null => simp [valueEq]
    | bool b => simp [valueEq]
    | number m =>
      have := numEq_refl m hw
      simpa [valueEq] using this
    | string s => simp [valueEq]
    | array l =>
      have hwl := wf_array hw
      have hs : sizeOf (Value.array l) = 1 + sizeOf l := by simp
      have hsl : sizeOf l ≤ k := by omega
      have : listEq l l = true := by
        clear hv hs hw
        induction l with
        | nil => simp [listEq]
        | cons x xs ihl =>
          rw [wfL, Bool.and_eq_true] at hwl
          have h2 : sizeOf (x :: xs) = 1 + sizeOf x + sizeOf xs := by simp
          rw [listEq, Bool.and_eq_true]
          exact ⟨ih x (by omega) hwl.1, ihl hwl.2 (by omega)⟩
      simpa [valueEq] using this
    | object m =>
      obtain ⟨hnd, hwp⟩ := wf_object hw
      have hs : sizeOf (Value.object m) = 1 + sizeOf m := by simp
      have hall : allIn m m = true := by
        rw [allIn_iff]
        rintro ⟨k2, v2⟩ hmem
        refine ⟨v2, mem_mapGet _ _ _ hnd hmem, ?_⟩
        have h1 := List.sizeOf_lt_of_mem hmem
        have h2 : sizeOf (k2, v2) = 1 + sizeOf k2 + sizeOf v2 := rfl
        exact ih v2 (by omega) (wfP_mem hwp hmem)
      simp [valueEq, hall]

theorem valueEq_refl (v : Value) (h : wf v = true) : valueEq v v = true :=
  valueEq_refl_aux (sizeOf v) v (Nat.le_refl _) h

/-- If every entry of `ma` is found in `mb` and the maps have equal size
(with `ma`'s keys unique), the key lists are permutations. -/
theorem keysOf_perm_of_allIn (ma mb : List (String × Value))
    (hnd : nodupKeys ma = true) (hlen : ma.length = mb.length)
    (h : allIn ma mb = true) : List.Perm (keysOf ma) (keysOf mb) := by
  have hsub : keysOf ma ⊆ keysOf mb := by
    intro kk hk
    have hck : containsKey kk ma = true := (containsKey_iff_mem kk ma).2 hk
    have hsome := (mapGet_isSome_iff kk ma).2 hck
    cases hg : mapGet kk ma with
    | none => rw [hg] at hsome; simp at hsome
    | some v =>
      have hmem := mapGet_mem kk v ma hg
      rcases (allIn_iff ma mb).1 h (kk, v) hmem with ⟨v2, hg2, _⟩
      exact mem_keysOf_of_mapGet hg2
  have hnd1 := (nodupKeys_iff ma).1 hnd
  have hsp : List.Subperm (keysOf ma) (keysOf mb) := hnd1.subperm hsub
  refine hsp.perm_of_length_le ?_
  rw [length_keysOf, length_keysOf, hlen]

/-- Transfer of the one-sided map inclusion to the other side, given
unique keys, equal sizes and elementwise symmetry of `valueEq`. -/
theorem allIn_flip (ma mb : List (String × Value))
    (hnd1 : nodupKeys ma = true) (hnd2 : nodupKeys mb = true)
    (hlen : ma.length = mb.length)
    (hpair : ∀ kk va vb, (kk, va) ∈ ma → (kk, vb) ∈ mb →
      valueEq va vb = valueEq vb va)
    (h : allIn ma mb = true) : allIn mb ma = true := by
  have hperm := keysOf_perm_of_allIn ma mb hnd1 hlen h
  rw [allIn_iff]
  rintro ⟨kk, vb⟩ hmb
  have hk2 : kk ∈ keysOf mb := List.mem_map_of_mem Prod.fst hmb
  have hk1 : kk ∈ keysOf ma := hperm.mem_iff.2 hk2
  have hck : containsKey kk ma = true := (containsKey_iff_mem kk ma).2 hk1
  have hsome := (mapGet_isSome_iff kk ma).2 hck
  cases hg : mapGet kk ma with
  | none => rw [hg] at hsome; simp at hsome
  | some va =>
    refine ⟨va, rfl, ?_⟩
    have hma := mapGet_mem kk va ma hg
    rcases (allIn_iff ma mb).1 h (kk, va) hma with ⟨v2, hg2, he⟩
    have hgb : mapGet kk mb = some vb := mem_mapGet kk vb mb hnd2 hmb
    rw [hgb] at hg2
    injection hg2 with hv
    subst hv
    rw [← hpair kk va vb hma hmb]
    exact he

/-- Elementwise symmetry of `listEq`, given symmetry of `valueEq` below
a size bound. -/
theorem listEq_symm_of (k : Nat)
    (ih : ∀ a : Value, sizeOf a ≤ k → ∀ b : Value,
      wf a = true → wf b = true → valueEq a b = valueEq b a) :
    ∀ l1 : List Value, sizeOf l1 ≤ k → ∀ l2 : List Value,
      wfL l1 = true → wfL l2 = true → listEq l1 l2 = listEq l2 l1 := by
  intro l1
  induction l1 with
  | nil =>
    intro _ l2 _ _
    cases l2 <;> simp [listEq]
  | cons x xs ihl =>
    intro hs l2 hw1 hw2
    cases l2 with
    | nil => simp [listEq]
    | cons y ys =>
      rw [wfL, Bool.and_eq_true] at hw1 hw2
      have h2 : sizeOf (x :: xs) = 1 + sizeOf x + sizeOf xs := by simp
      rw [listEq, listEq, ih x (by omega) y hw1.1 hw2.1,
        ihl (by omega) ys hw1.2 hw2.2]

/-- Symmetry of `valueEq` on well-formed values, by strong induction on
the size of the first argument. -/
theorem valueEq_symm_aux :
    ∀ (n : Nat) (a : Value), sizeOf a ≤ n → ∀ b : Value,
      wf a = true → wf b = true → valueEq a b = valueEq b a := by
  intro n
  induction n with
  | zero =>
    intro a ha
    exact absurd ha (by have := value_sizeOf_pos a; omega)
  | succ k ih =>
    intro a ha b hwa hwb
    cases a with
    | null => cases b <;> simp [valueEq]
    | bool x =>
      cases b with
      | bool y => simpa [valueEq] using beqComm x y
      | null => simp [valueEq]
      | number m => simp [valueEq]
      | string s => simp [valueEq]
      | array l => simp [valueEq]
      | object m => simp [valueEq]
    | number m1 =>
      cases b with
      | number m2 => simpa [valueEq] using numEq_symm m1 m2
      | null => simp [valueEq]
      | bool y => simp [valueEq]
      | string s => simp [valueEq]
      | array l => simp [valueEq]
      | object m => simp [valueEq]
    | string s1 =>
      cases b with
      | string s2 => simpa [valueEq] using beqComm s1 s2
      | null => simp [valueEq]
      | bool y => simp [valueEq]
      | number m => simp [valueEq]
      | array l => simp [valueEq]
      | object m => simp [valueEq]
    | array l1 =>
      cases b with
      | array l2 =>
        have hb1 := wf_array hwa
        have hb2 := wf_array hwb
        have hs : sizeOf (Value.array l1) = 1 + sizeOf l1 := by simp
        have hgoal : listEq l1 l2 = listEq l2 l1 :=
          listEq_symm_of k ih l1 (by omega) l2 hb1 hb2
        simpa [valueEq] using hgoal
      | null => simp [valueEq]
      | bool y => simp [valueEq]
      | number m => simp [valueEq]
      | string s => simp [valueEq]
      | object m => simp [valueEq]
    | object m1 =>
      cases b with
      | object m2 =>
        obtain ⟨hnd1, hwp1⟩ := wf_object hwa
        obtain ⟨hnd2, hwp2⟩ := wf_object hwb
        have hs : sizeOf (Value.object m1) = 1 + sizeOf m1 := by simp
        have hpair : ∀ kk va vb, (kk, va) ∈ m1 → (kk, vb) ∈ m2 →
            valueEq va vb = valueEq vb va := by
          intro kk va vb h1 h2
          have hsz := List.sizeOf_lt_of_mem h1
          have hp : sizeOf (kk, va) = 1 + sizeOf kk + sizeOf va := rfl
          exact ih va (by omega) vb (wfP_mem hwp1 h1) (wfP_mem hwp2 h2)
        by_cases hlen : m1.length = m2.length
        · have e1 : (m1.length == m2.length) = true := beq_iff_eq.2 hlen
          have e2 : (m2.length == m1.length) = true := beq_iff_eq.2 hlen.symm
          have hgoal : allIn m1 m2 = allIn m2 m1 := by
            cases hab : allIn m1 m2 with
            | true =>
              rw [allIn_flip m1 m2 hnd1 hnd2 hlen hpair hab]
            | false =>
              cases hba : allIn m2 m1 with
              | false => rfl
              | true =>
                exfalso
                have hflip := allIn_flip m2 m1 hnd2 hnd1 hlen.symm
                  (fun kk va vb h2 h1 => (hpair kk vb va h1 h2).symm) hba
                rw [hab] at hflip
                simp at hflip
          simp [valueEq, e1, e2, hgoal]
        · have e1 : (m1.length == m2.length) = false := beq_eq_false_iff_ne.2 hlen
          have e2 : (m2.length == m1.length) = false :=
            beq_eq_false_iff_ne.2 (Ne.symm hlen)
          simp [valueEq, e1, e2]
      | null => simp [valueEq]
      | bool y => simp [valueEq]
      | number m => simp [valueEq]
      | string s => simp [valueEq]
      | array l => simp [valueEq]

theorem valueEq_symm (a b : Value) (hwa : wf a = true) (hwb : wf b = true) :
    valueEq a b = valueEq b a :=
  valueEq_symm_aux (sizeOf a) a (Nat.le_refl _) b hwa hwb

/-- The object case of `valueEq`, characterised: equal iff same key set
and equal values at every common key (for unique-keyed maps). -/
theorem valueEq_object_iff (ma mb : List (String × Value))
    (hwa : wf (Value.object ma) = true) (hwb : wf (Value.object mb) = true) :
    valueEq (Value.object ma) (Value.object mb) = true ↔
      ((∀ kk, containsKey kk ma = containsKey kk mb) ∧
       (∀ kk va vb, mapGet kk ma = some va → mapGet kk mb = some vb →
          valueEq va vb = true)) := by
  obtain ⟨hnd1, _⟩ := wf_object hwa
  obtain ⟨hnd2, _⟩ := wf_object hwb
  have hunfold : valueEq (Value.object ma) (Value.object mb)
      = ((ma.length == mb.length) && allIn ma mb) := by simp [valueEq]
  rw [hunfold, Bool.and_eq_true]
  constructor
  · rintro ⟨hlenb, hall⟩
    have hlen : ma.length = mb.length := beq_iff_eq.1 hlenb
    have hperm := keysOf_perm_of_allIn ma mb hnd1 hlen hall
    constructor
    · intro kk
      refine Bool.eq_iff_iff.2 ?_
      rw [containsKey_iff_mem, containsKey_iff_mem]
      exact hperm.mem_iff
    · intro kk va vb hga hgb
      have hma := mapGet_mem kk va ma hga
      rcases (allIn_iff ma mb).1 hall (kk, va) hma with ⟨v2, hg2, he⟩
      rw [hgb] at hg2
      injection hg2 with hv
      subst hv
      exact he
  · rintro ⟨hck, hkv⟩
    have hmem : ∀ kk, kk ∈ keysOf ma ↔ kk ∈ keysOf mb := by
      intro kk
      rw [← containsKey_iff_mem, ← containsKey_iff_mem, hck kk]
    have hperm : List.Perm (keysOf ma) (keysOf mb) :=
      (List.perm_ext_iff_of_nodup ((nodupKeys_iff ma).1 hnd1)
        ((nodupKeys_iff mb).1 hnd2)).2 hmem
    have hlen : ma.length = mb.length := by
      have := hperm.length_eq
      rwa [length_keysOf, length_keysOf] at this
    refine ⟨beq_iff_eq.2 hlen, ?_⟩
    rw [allIn_iff]
    rintro ⟨kk, va⟩ hma
    have hga : mapGet kk ma = some va := mem_mapGet kk va ma hnd1 hma
    have hcka : containsKey kk ma = true := containsKey_of_mem kk va ma hma
    have hckb : containsKey kk mb = true := by rw [← hck kk]; exact hcka
    have hsome := (mapGet_isSome_iff kk mb).2 hckb
    cases hgb : mapGet kk mb with
    | none => rw [hgb] at hsome; simp at hsome
    | some vb => exact ⟨vb, rfl, hkv kk va vb hga hgb⟩

/-- C9: the equality used by `compare` is reflexive and symmetric on the
well-formed values the program can construct, and on `Object`s it is
insensitive to key order: two objects are equal iff they have the same
set of keys with equal values at every key; in particular
`equal({"x": 1, "y": 2}, {"y": 2, "x": 1})` is `true`. -/
theorem C9_compare_refl_symm_keyorder :
    (∀ a : Value, wf a = true → do_compare a a = true) ∧
    (∀ a b : Value, wf a = true → wf b = true → do_compare a b = do_compare b a) ∧
    (∀ ma mb, wf (Value.object ma) = true → wf (Value.object mb) = true →
      (do_compare (Value.object ma) (Value.object mb) = true ↔
        ((∀ kk, containsKey kk ma = containsKey kk mb) ∧
         (∀ kk va vb, mapGet kk ma = some va → mapGet kk mb = some vb →
            valueEq va vb = true)))) ∧
    do_compare (Value.object [("x", n1), ("y", n2)])
      (Value.object [("y", n2), ("x", n1)]) = true := by
  refine ⟨fun a h => valueEq_refl a h, fun a b ha hb => valueEq_symm a b ha hb,
    fun ma mb ha hb => valueEq_object_iff ma mb ha hb, ?_⟩
  simp [do_compare, valueEq, allIn, mapGet, n1, n2, numEq]

/-- C9 (witness): reflexivity and symmetry applied to the concrete
documents `{"key": "number"}` and `{}`. -/
theorem C9_compare_witness :
    do_compare keyDoc keyDoc = true ∧
    do_compare keyDoc (Value.object []) = do_compare (Value.object []) keyDoc :=
  ⟨C9_compare_refl_symm_keyorder.1 keyDoc
      (by simp [keyDoc, wf, wfP, nodupKeys, containsKey]),
   C9_compare_refl_symm_keyorder.2.1 keyDoc (Value.object [])
      (by simp [keyDoc, wf, wfP, nodupKeys, containsKey])
      (by simp [wf, wfP, nodupKeys])⟩

/-- C10: the scalar (wildcard) arm of `pointer_inner` always produces a
usable handle: the freshly written value re-matches as an `Object` and
the lookup succeeds with `Null`, so the inner arm returning `None` is
never taken, for every token. -/
theorem C10_scalar_arm_never_fails :
    ∀ t : String,
      scalarArm t = (Value.object [(t, Value.null)], some Value.null) ∧
      (scalarArm t).2.isSome = true := by
  intro t
  exact ⟨scalarArm_eq t, by simp [scalarArm_eq]⟩
